import Mathlib

/-!
Shallow embedding of the npblob TypeScript codec (src/typescript/src/index.ts):
the chunk-splitting primitive `splitChunks`, the record parser
`parseFromUint8ArrayChunks` (here `parseGo`/`parseChunks`), the one-shot
`decode`, the `encode` function, and the streaming driver built by
`streamFromReadableStream` (here `pull`/`runDriver`).

Bytes are modelled as natural numbers < 256, buffers as `List Nat`, and a
chunk queue as `List (List Nat)`.  Machine-integer effects (Uint8Array
storage wrapping a signed value, the unsigned read-back of header bytes)
are modelled explicitly with `% 256`.  The host system is little-endian,
as detected by the source's `getSystemEndianness` on JavaScript runtimes;
this is recorded in the constant `sysLittleEndian`.
-/

namespace NpBlob

/-- Little-endian value of a byte list: `bs.foldr (fun b acc => b + 256 * acc) 0`. -/
def leVal (bs : List Nat) : Nat := bs.foldr (fun b acc => b + 256 * acc) 0

/-- The two bytes a `Uint16Array` stores for value `v` on a little-endian host. -/
def u16le (v : Nat) : List Nat := [v % 256, v / 256 % 256]

/-- The four bytes a `Uint32Array` stores for value `v` on a little-endian host. -/
def u32le (v : Nat) : List Nat := [v % 256, v / 256 % 256, v / 65536 % 256, v / 16777216 % 256]

/-- Big-endian byte order of a 32-bit value (`DataView.setUint32` with `littleEndian = false`). -/
def u32be (v : Nat) : List Nat := (u32le v).reverse

/-- Group a byte list into words of `w` bytes and read each little-endian:
the element values of a typed array constructed over the bytes on a
little-endian host.  `count` is the number of elements (`bs.length / w`). -/
def lePatternsGo (w : Nat) : Nat → List Nat → List Nat
  | 0, _ => []
  | k + 1, bs => leVal (bs.take w) :: lePatternsGo w k (bs.drop w)

/-- Element values of a typed array of `w`-byte elements over bytes `bs`. -/
def lePatterns (w : Nat) (bs : List Nat) : List Nat := lePatternsGo w (bs.length / w) bs

/-- Concatenation of a chunk queue. -/
def joinChunks (q : List (List Nat)) : List Nat := q.flatten

/-- Models `getSystemEndianness()`: JavaScript engines run on little-endian
hosts, so the module-level constant `__SYS_ENDIAN` is `"<"`. -/
def sysLittleEndian : Bool := true

/-- The supported dtypes, the keys of `DTypeMap` (64-bit integers excluded). -/
inductive DType
  | uint8 | uint16 | uint32 | int8 | int16 | int32 | float16 | float32 | float64
  deriving DecidableEq, Repr

/-- `__DTYPE_FLAGS_ENCODING`: dtype name to wire code. -/
def dtypeCode : DType → Nat
  | .uint8 => 1
  | .uint16 => 2
  | .uint32 => 3
  | .int8 => 5
  | .int16 => 6
  | .int32 => 7
  | .float16 => 9
  | .float32 => 10
  | .float64 => 11

/-- `BYTES_PER_ELEMENT` of the typed array holding each dtype
(float16 is stored as raw 16-bit halves). -/
def dtypeWidth : DType → Nat
  | .uint8 => 1
  | .uint16 => 2
  | .uint32 => 4
  | .int8 => 1
  | .int16 => 2
  | .int32 => 4
  | .float16 => 2
  | .float32 => 4
  | .float64 => 8

/-- `__DTYPE_FLAGS_DECODING`: wire code to element width and reported dtype tag.
Codes 4 and 8 are commented out in the source (`uint64`/`int64` unsupported):
indexing the table there yields `undefined`, whose destructuring throws.
Code 9 maps to `parseFloat16ArrayBuffer` with width 2 and tag `"float32"`. -/
def decodeInfo : Nat → Option (Nat × DType)
  | 1 => some (1, .uint8)
  | 2 => some (2, .uint16)
  | 3 => some (4, .uint32)
  | 5 => some (1, .int8)
  | 6 => some (2, .int16)
  | 7 => some (4, .int32)
  | 9 => some (2, .float32)
  | 10 => some (4, .float32)
  | 11 => some (8, .float64)
  | _ => none

/-- The dtype tag reported by decode for a record encoded with dtype `dt`
(code 9, float16, is reported as float32; all others keep their name). -/
def decodeTag (dt : DType) : DType :=
  match dt with
  | .float16 => .float32
  | d => d

/-- The float32 bit pattern `castFloat16` produces from a 16-bit half-precision
pattern, as stored back into a `Float32Array`.  Every finite half value is
exactly representable in single precision, so this is the standard
half-to-single bit conversion; `(±1) * NaN` loses the sign and the runtime
stores the canonical quiet NaN pattern. -/
def castFloat16Bits (u : Nat) : Nat :=
  let s := u / 32768 % 2
  let e := u / 1024 % 32
  let f := u % 1024
  if e = 31 then
    if f = 0 then s * 2147483648 + 2139095040
    else 2143289344
  else if e = 0 then
    if f = 0 then s * 2147483648
    else
      let m := Nat.log2 f
      s * 2147483648 + (103 + m) * 8388608 + (f - 2 ^ m) * 2 ^ (23 - m)
  else s * 2147483648 + (e + 112) * 8388608 + f * 8192

/-! ### splitChunks -/

/-- The loop of `splitChunks`: walk the queue accumulating whole chunks while
`accumulated + chunk.length <= length` (here tracked as the still-`need`ed
byte count); the first chunk that would overshoot is split in place when
`0 < need` (front part popped, remainder replacing it at the queue front)
and the loop breaks.  Returns the popped bytes, the number of bytes
accumulated, and the queue left after the final `chunks.splice(0, splitChunksAt)`. -/
def takeLoop : Nat → List (List Nat) → List Nat × Nat × List (List Nat)
  | _, [] => ([], 0, [])
  | need, c :: rest =>
    if c.length ≤ need then
      let (bs, acc, q) := takeLoop (need - c.length) rest
      (c ++ bs, c.length + acc, q)
    else if 0 < need then
      (c.take need, need, c.drop need :: rest)
    else
      ([], 0, c :: rest)

/-- `splitChunks(chunks, length)`.  On success the popped bytes are returned
and the queue holds what remains.  When the queue runs out with fewer than
`length` bytes accumulated, the source throws `IncompleteChunksError`
*before* the `splice`, and the in-place split only ever happens in the
overshoot branch (which forces success), so the failing call leaves the
caller's queue exactly as it was: modelled by returning `(none, q)`. -/
def splitChunks (q : List (List Nat)) (length : Nat) : Option (List Nat) × List (List Nat) :=
  let (bs, acc, q') := takeLoop length q
  if acc < length then (none, q) else (some bs, q')

/-! ### The record parser -/

/-- Errors thrown (and not caught) by `parseFromUint8ArrayChunks`. -/
inductive PErr
  | zeroHeader
  | badDType
  | unsupportedDType
  | oddFloat16
  | badExtraFlag
  | leftoverChunks
  deriving DecidableEq, Repr

/-- A decoded array: shape, reported dtype tag and the element values of the
typed array built over the data bytes (bit patterns; signed and float types
reinterpret the same patterns). -/
structure DecNDArray where
  shape : List Nat
  dType : DType
  data : List Nat
  deriving DecidableEq, Repr

/-- A decoded extra payload: `null`, raw bytes (flag 1) or a JSON text
payload (flag 2), represented by its UTF-8 bytes. -/
inductive DecExtra
  | none
  | raw (bytes : List Nat)
  | json (bytes : List Nat)
  deriving DecidableEq, Repr

/-- One decoded record: array plus extra. -/
abbrev DecRec := DecNDArray × DecExtra

/-- The body of `parseFromUint8ArrayChunks`' `while (chunks.length > 0)` loop.
`acc` is `result`, `temp` is `tempChunks`.  Each `splitChunks` failure
(`IncompleteChunksError`) is caught at the bottom of the source function:
`chunks.unshift(...tempChunks)` restores the consumed chunks and the records
decoded so far are returned.  Hard errors (`throw new Error()`) propagate.

Byte 0 and byte 1 of the header are read by destructuring the `Uint8Array`
returned by `splitChunks`, so they are unsigned values 0..255: the source's
`i0 < 0` big-endian branch and the `i1 < 0` 32-bit-shape branch can only see
`i1 = 0` and are otherwise unreachable; `littleEndian` is always `true` and
`sameEndian` always holds on the little-endian host, so every field is read
little-endian and data is viewed in host order. -/
def parseGo : Nat → List (List Nat) → List DecRec → List (List Nat) →
    Except PErr (List DecRec × List (List Nat))
  | 0, q, acc, _ => .ok (acc, q)
  | fuel + 1, q, acc, temp =>
    match q with
    | [] => .ok (acc, [])
    | _ :: _ =>
      match splitChunks q 2 with
      | (none, _) => .ok (acc, temp ++ q)
      | (some hdr, q1) =>
        let temp1 := temp ++ [hdr]
        let i0 := hdr.headD 0
        let i1 := (hdr.drop 1).headD 0
        if i0 = 0 then .error .zeroHeader
        else
          let dt := i0
          if 12 ≤ dt then .error .badDType
          else
            match decodeInfo dt with
            | none => .error .unsupportedDType
            | some (w, tag) =>
              let d0 := if 0 < i1 then 2 * i1 else 4 * 0
              match splitChunks q1 d0 with
              | (none, _) => .ok (acc, temp1 ++ q1)
              | (some shBytes, q2) =>
                let temp2 := temp1 ++ [shBytes]
                let shape := if 0 < i1 then lePatterns 2 shBytes else lePatterns 4 shBytes
                let e0 := shape.foldl (· * ·) 1 * w
                match splitChunks q2 e0 with
                | (none, _) => .ok (acc, temp2 ++ q2)
                | (some dBytes, q3) =>
                  let temp3 := temp2 ++ [dBytes]
                  if dt = 9 ∧ dBytes.length % 2 ≠ 0 then .error .oddFloat16
                  else
                    let elems :=
                      if dt = 9 then (lePatterns 2 dBytes).map castFloat16Bits
                      else lePatterns w dBytes
                    let nd : DecNDArray := ⟨shape, tag, elems⟩
                    if q3 = [] then .ok (acc ++ [(nd, .none)], q3)
                    else
                      match splitChunks q3 1 with
                      | (none, _) => .ok (acc, temp3 ++ q3)
                      | (some fB, q4) =>
                        let temp4 := temp3 ++ [fB]
                        let eFlag := fB.headD 0
                        if eFlag = 0 then parseGo fuel q4 (acc ++ [(nd, .none)]) temp4
                        else
                          match splitChunks q4 4 with
                          | (none, _) => .ok (acc, temp4 ++ q4)
                          | (some lB, q5) =>
                            let temp5 := temp4 ++ [lB]
                            let eLen := leVal lB
                            match splitChunks q5 eLen with
                            | (none, _) => .ok (acc, temp5 ++ q5)
                            | (some eB, q6) =>
                              let exOpt : Option DecExtra :=
                                if eFlag = 1 then some (.raw eB)
                                else if eFlag = 2 then some (.json eB)
                                else none
                              match exOpt with
                              | none => .error .badExtraFlag
                              | some ex =>
                                let acc2 := acc ++ [(nd, ex)]
                                match q6 with
                                | [] => .ok (acc2, q6)
                                | c :: _ =>
                                  if c.headD 1 = 0 then
                                    match splitChunks q6 1 with
                                    | (none, _) => .ok (acc2, q6)
                                    | (some _, q7) => parseGo fuel q7 acc2 []
                                  else .ok (acc2, q6)

/-- `parseFromUint8ArrayChunks`.  Fuel one more than the number of buffered
bytes: every loop iteration that recurses consumes at least one byte. -/
def parseChunks (q : List (List Nat)) : Except PErr (List DecRec × List (List Nat)) :=
  parseGo ((joinChunks q).length + 1) q [] []

/-- `decode(buffer) = parseFromUint8ArrayChunks([buffer])`. -/
def decode (buffer : List Nat) : Except PErr (List DecRec) :=
  (parseChunks [buffer]).map (·.1)

/-! ### encode -/

/-- An input array for `encode`: shape, dtype and the bytes of the typed
array's underlying buffer in host (little-endian) order; the element count
is `data.length / dtypeWidth dType` and `byteLength = data.length`. -/
structure NDArray where
  shape : List Nat
  dType : DType
  data : List Nat
  deriving DecidableEq, Repr

/-- The extra argument of an encoded record: `null`, an
`ArrayBuffer`/`Uint8Array` (encoded raw with flag 1), or any other object
(encoded with flag 2 as the UTF-8 bytes of its `JSON.stringify` text, which
we carry directly). -/
inductive Extra
  | none
  | raw (bytes : List Nat)
  | json (bytes : List Nat)
  deriving DecidableEq, Repr

/-- Errors thrown by `encode`. -/
inductive EncErr
  | tooManyDims
  | dimTooLarge
  | negativeLength
  deriving DecidableEq, Repr

/-- A `Uint8Array` store wraps its operand modulo 256 (two's complement for
negative values): `blob[offset] = i0`. -/
def storeByte (i : Int) : Nat := (i % 256).toNat

/-- One entry of `blobComponents`:
`[i0, i1, shapeArray, data, extraEncoding, extraLength, extraArray]`,
with the typed arrays kept as their host little-endian buffer bytes plus
element size and count. -/
structure Component where
  i0 : Int
  i1 : Int
  shapeBytes : List Nat
  shapeStep : Nat
  shapeLen : Nat
  dataBytes : List Nat
  dataStep : Nat
  dataLen : Nat
  extraEncoding : Nat
  extraLength : Nat
  extraBytes : List Nat
  deriving DecidableEq, Repr

/-- The per-record half of `encode`'s first loop: dtype lookup, the
dimension-count check, the shape-width choice via `Math.max(...shape)`
(`-Infinity` for an empty shape, modelled by `foldl max 0` — equivalent for
the branch tests since dimensions are non-negative), and the extra encoding
choice. -/
def mkComponent (arr : NDArray) (extra : Extra) (littleEndian : Bool) :
    Except EncErr Component :=
  let code := dtypeCode arr.dType
  let i0 : Int := if littleEndian then (code : Int) else -(code : Int)
  let i1n := arr.shape.length
  if 128 < i1n then .error .tooManyDims
  else
    let maxDim := arr.shape.foldl max 0
    let pick : Except EncErr (List Nat × Bool) :=
      if maxDim < 65536 then .ok (arr.shape.flatMap u16le, false)
      else if maxDim < 4294967296 then .ok (arr.shape.flatMap u32le, true)
      else .error .dimTooLarge
    pick.map fun (shapeBytes, bigShape) =>
      let i1 : Int := if bigShape then -(i1n : Int) else (i1n : Int)
      let shapeStep := if bigShape then 4 else 2
      let w := dtypeWidth arr.dType
      let base : Component :=
        { i0 := i0, i1 := i1, shapeBytes := shapeBytes, shapeStep := shapeStep
          shapeLen := i1n, dataBytes := arr.data, dataStep := w
          dataLen := arr.data.length / w
          extraEncoding := 0, extraLength := 0, extraBytes := [] }
      match extra with
      | .none => base
      | .raw bytes => { base with extraEncoding := 1, extraLength := bytes.length
                                  extraBytes := bytes }
      | .json bytes => { base with extraEncoding := 2, extraLength := bytes.length
                                   extraBytes := bytes }

/-- The byte-swapping write loop of `encode`'s not-`sameEndian` branch.  It
contains an indexing slip: the source buffer is read at the *global blob
offset* (`shapeArrayBuffer[offset + step - j - 1]`), not at the position
inside the source array; out-of-range reads give `undefined`, which a
`Uint8Array` stores as 0.  `o` is the blob offset at which this field
starts. -/
def swappedAt (src : List Nat) (o step count : Nat) : List Nat :=
  (List.range count).flatMap fun idx =>
    (List.range step).map fun j =>
      src.getD (o + idx * step + step - j - 1) 0

/-- The bytes `encode`'s second loop writes for one component, excluding the
inter-record separator.  `offset` is the blob offset of the record's header
byte. -/
def writeComp (c : Component) (littleEndian sameEndian : Bool) (offset : Nat) : List Nat :=
  let body :=
    if sameEndian then c.shapeBytes ++ c.dataBytes
    else
      swappedAt c.shapeBytes (offset + 2) c.shapeStep c.shapeLen ++
        swappedAt c.dataBytes (offset + 2 + c.shapeBytes.length) c.dataStep c.dataLen
  let extraPart :=
    if 0 < c.extraEncoding then
      c.extraEncoding :: ((if littleEndian then u32le c.extraLength else u32be c.extraLength) ++
        c.extraBytes)
    else []
  storeByte c.i0 :: storeByte c.i1 :: body ++ extraPart

/-- `encode`'s write loop over all components: a `0x00` separator before
every record except the first, tracking the running blob offset. -/
def writeAll (cs : List Component) (littleEndian sameEndian : Bool) (first : Bool)
    (offset : Nat) : List Nat :=
  match cs with
  | [] => []
  | c :: rest =>
    let sep : List Nat := if first then [] else [0]
    let here := writeComp c littleEndian sameEndian (offset + sep.length)
    sep ++ here ++
      writeAll rest littleEndian sameEndian false (offset + sep.length + here.length)

/-- `encode(items, littleEndian)`.  With `littleEndian` omitted the host
order is used and `sameEndian` is true; otherwise `sameEndian` compares the
argument with the host order.  The output buffer is allocated with length
`blobLength + numBlobComponents - 1`, which is `-1` for an empty input and
makes `new Uint8Array` throw a `RangeError`. -/
def encode (items : List (NDArray × Extra)) (littleEndian? : Option Bool) :
    Except EncErr (List Nat) := do
  let (le, sameEndian) :=
    match littleEndian? with
    | none => (sysLittleEndian, true)
    | some b => (b, b == sysLittleEndian)
  let cs ← items.mapM fun (arr, ex) => mkComponent arr ex le
  let blobLength : Nat := (cs.map fun c =>
    2 + c.shapeBytes.length + c.dataBytes.length +
      (if 0 < c.extraEncoding then 5 + c.extraBytes.length else 0)).sum
  if (blobLength : Int) + (cs.length : Int) - 1 < 0 then .error .negativeLength
  else .ok (writeAll cs le sameEndian true 0)

/-! ### The streaming driver -/

/-- The state captured by `streamFromReadableStream`'s closure: the chunk
queue, the decoded-but-undelivered records `nes`, the `streamDone` flag, and
the not-yet-delivered chunks of the upstream source. -/
structure DState where
  chunks : List (List Nat)
  nes : List DecRec
  streamDone : Bool
  source : List (List Nat)
  deriving DecidableEq, Repr

/-- The `while (nes.length === 0)` read loop: pull one chunk, push it on the
queue, parse; stop when the parse yields records or the source is done.
Returns the new records, the queue, the rest of the source, and whether the
source signalled done. -/
def readLoop : List (List Nat) → List (List Nat) →
    Except PErr (List DecRec × List (List Nat) × List (List Nat) × Bool)
  | [], q => .ok ([], q, [], true)
  | c :: rest, q =>
    match parseChunks (q ++ [c]) with
    | .error e => .error e
    | .ok (recs, q2) =>
      if recs = [] then readLoop rest q2 else .ok (recs, q2, rest, false)

/-- One invocation of the stream's `pull` handler (`yieldArrays`).  Returns
the records enqueued to the consumer, whether the stream was closed, and the
updated state; a hard parse error rejects the pull.  The final
`else` branch of the source (parse once more, close, then throw
`"There are still chunks left"` when chunks remain) is reachable only with
`streamDone` set and `nes` empty, which the first fast path already
returns on, but it is transcribed faithfully. -/
def pull (s : DState) : Except PErr (List DecRec × Bool × DState) :=
  if s.streamDone ∧ s.nes = [] then .ok ([], true, s)
  else if s.nes ≠ [] then .ok (s.nes, false, { s with nes := [] })
  else
    match parseChunks s.chunks with
    | .error e => .error e
    | .ok (recs, q') =>
      if recs ≠ [] then .ok (recs, false, { s with chunks := q', nes := [] })
      else if ¬s.streamDone then
        match readLoop s.source q' with
        | .error e => .error e
        | .ok (recs2, q2, src2, done2) =>
          if recs2 ≠ [] then
            .ok (recs2, false, { chunks := q2, nes := [], streamDone := done2, source := src2 })
          else .ok ([], false, { chunks := q2, nes := [], streamDone := done2, source := src2 })
      else
        match parseChunks q' with
        | .error e => .error e
        | .ok (recs3, q3) =>
          if recs3 ≠ [] then .ok (recs3, false, { s with chunks := q3, nes := [] })
          else if q3 ≠ [] then .error .leftoverChunks
          else .ok ([], true, { s with chunks := q3, nes := [] })

/-- The initial driver state for a source delivering the given chunks. -/
def initState (source : List (List Nat)) : DState :=
  ⟨[], [], false, source⟩

/-- Drive the stream for at most `fuel` pulls, concatenating everything
enqueued, and stopping at close.  The boolean records whether the stream
closed within the fuel. -/
def runDriver : Nat → DState → Except PErr (List DecRec × Bool × DState)
  | 0, s => .ok ([], false, s)
  | fuel + 1, s =>
    match pull s with
    | .error e => .error e
    | .ok (rs, true, s') => .ok (rs, true, s')
    | .ok (rs, false, s') =>
      match runDriver fuel s' with
      | .error e => .error e
      | .ok (rs2, closed, s2) => .ok (rs ++ rs2, closed, s2)

/-- Projection of a driver run to the observable outcome: the emitted
records and whether the stream closed. -/
def outcome (r : Except PErr (List DecRec × Bool × DState)) :
    Except PErr (List DecRec × Bool) :=
  r.map fun x => (x.1, x.2.1)

/-! ### Properties of splitChunks -/

theorem takeLoop_bytes (L : Nat) (q : List (List Nat)) :
    (takeLoop L q).1 = (joinChunks q).take L := by
  induction q generalizing L with
  | nil => simp [takeLoop, joinChunks]
  | cons c rest ih =>
    simp only [takeLoop, joinChunks, List.flatten_cons]
    by_cases h : c.length ≤ L
    · simp only [if_pos h, List.take_append_eq_append_take, List.take_of_length_le h]
      have := ih (L - c.length)
      simp [joinChunks] at this
      simp [this]
    · simp only [if_neg h]
      by_cases h0 : 0 < L
      · simp only [if_pos h0, List.take_append_eq_append_take]
        have : L - c.length = 0 := by omega
        simp [this]
      · have : L = 0 := by omega
        simp [this]

theorem takeLoop_acc (L : Nat) (q : List (List Nat)) :
    (takeLoop L q).2.1 = min L (joinChunks q).length := by
  induction q generalizing L with
  | nil => simp [takeLoop, joinChunks]
  | cons c rest ih =>
    simp only [takeLoop, joinChunks, List.flatten_cons]
    by_cases h : c.length ≤ L
    · simp only [if_pos h]
      have := ih (L - c.length)
      simp only [joinChunks] at this
      simp only [this, List.length_append]
      omega
    · simp only [if_neg h]
      by_cases h0 : 0 < L
      · simp only [if_pos h0, List.length_append]
        omega
      · have : L = 0 := by omega
        simp [this]

theorem takeLoop_queue (L : Nat) (q : List (List Nat)) (h : L ≤ (joinChunks q).length) :
    joinChunks (takeLoop L q).2.2 = (joinChunks q).drop L := by
  induction q generalizing L with
  | nil =>
    simp [joinChunks] at h
    simp [takeLoop, joinChunks, h]
  | cons c rest ih =>
    simp only [joinChunks, List.flatten_cons, List.length_append] at h
    simp only [takeLoop, joinChunks, List.flatten_cons]
    by_cases hc : c.length ≤ L
    · simp only [if_pos hc]
      have hrec := ih (L - c.length) (by simp only [joinChunks]; omega)
      simp only [joinChunks] at hrec
      simp only [List.drop_append_eq_append_drop, List.drop_of_length_le hc, List.nil_append]
      exact hrec
    · simp only [if_neg hc]
      by_cases h0 : 0 < L
      · simp only [if_pos h0, joinChunks, List.flatten_cons,
          List.drop_append_eq_append_drop]
        have : L - c.length = 0 := by omega
        simp [this]
      · have : L = 0 := by omega
        simp [this, joinChunks]

theorem takeLoop_queue_head (L : Nat) (q : List (List Nat))
    (h : L ≤ (joinChunks q).length) :
    ∀ c cs, (takeLoop L q).2.2 = c :: cs → c ≠ [] := by
  induction q generalizing L with
  | nil => simp [takeLoop]
  | cons c rest ih =>
    simp only [joinChunks, List.flatten_cons, List.length_append] at h
    simp only [takeLoop]
    by_cases hc : c.length ≤ L
    · simp only [if_pos hc]
      exact ih (L - c.length) (by simp only [joinChunks]; omega)
    · simp only [if_neg hc]
      by_cases h0 : 0 < L
      · simp only [if_pos h0]
        intro d ds hd
        obtain ⟨rfl, _⟩ : c.drop L = d ∧ rest = ds := by
          exact ⟨(List.cons.injEq .. ▸ hd).1, (List.cons.injEq .. ▸ hd).2⟩
        simp [List.drop_eq_nil_iff]
        omega
      · simp only [if_neg h0]
        intro d ds hd
        obtain ⟨rfl, _⟩ : c = d ∧ rest = ds :=
          ⟨(List.cons.injEq .. ▸ hd).1, (List.cons.injEq .. ▸ hd).2⟩
        intro hnil
        simp [hnil] at hc

theorem splitChunks_none (q : List (List Nat)) (L : Nat)
    (h : (joinChunks q).length < L) : splitChunks q L = (none, q) := by
  have hacc := takeLoop_acc L q
  simp only [splitChunks]
  rw [show takeLoop L q = ((takeLoop L q).1, (takeLoop L q).2.1, (takeLoop L q).2.2) from rfl]
  simp only [hacc]
  rw [if_pos (by omega)]

theorem splitChunks_some (q : List (List Nat)) (L : Nat)
    (h : L ≤ (joinChunks q).length) :
    splitChunks q L = (some ((joinChunks q).take L), (takeLoop L q).2.2) := by
  have hacc := takeLoop_acc L q
  have hbytes := takeLoop_bytes L q
  simp only [splitChunks]
  rw [show takeLoop L q = ((takeLoop L q).1, (takeLoop L q).2.1, (takeLoop L q).2.2) from rfl]
  simp only [hacc, hbytes]
  rw [if_neg (by omega)]

theorem splitChunks_some_queue_nil (q : List (List Nat)) (L : Nat)
    (h : L ≤ (joinChunks q).length)
    (h2 : joinChunks (takeLoop L q).2.2 = []) : (takeLoop L q).2.2 = [] := by
  match hq : (takeLoop L q).2.2 with
  | [] => rfl
  | c :: cs =>
    have hc := takeLoop_queue_head L q h c cs hq
    rw [hq] at h2
    simp only [joinChunks, List.flatten_cons, List.append_eq_nil] at h2
    exact absurd h2.1 hc

/-! ### The wire layout of a single record without extra, little-endian,
with all dimensions below 65536 (the 16-bit shape form) -/

/-- `shape.reduce((a, b) => a * b, 1)`. -/
def prodShape (shape : List Nat) : Nat := shape.foldl (· * ·) 1

/-- The bytes `encode` produces for one record with no extra in the
little-endian 16-bit-shape layout: dtype code, dimension count, 16-bit
little-endian shape entries, then the raw data bytes. -/
def simpleBytes (shape : List Nat) (dt : DType) (data : List Nat) : List Nat :=
  dtypeCode dt :: shape.length :: (shape.flatMap u16le ++ data)

/-- The element values decode builds over the data bytes: code 9 casts each
16-bit half pattern to a float32 pattern, every other code views the bytes
through the corresponding typed array. -/
def decElems (dt : DType) (data : List Nat) : List Nat :=
  if dt = .float16 then (lePatterns 2 data).map castFloat16Bits
  else lePatterns (dtypeWidth dt) data

/-- The record decode reconstructs from `simpleBytes shape dt data`. -/
def simpleRec (shape : List Nat) (dt : DType) (data : List Nat) : DecRec :=
  (⟨shape, decodeTag dt, decElems dt data⟩, .none)

theorem length_shape_bytes (shape : List Nat) :
    (shape.flatMap u16le).length = 2 * shape.length := by
  induction shape with
  | nil => simp
  | cons d tl ih => simp [u16le, ih]; omega

theorem lePatternsGo_u16 (shape : List Nat) (h : ∀ d ∈ shape, d < 65536) :
    lePatternsGo 2 shape.length (shape.flatMap u16le) = shape := by
  induction shape with
  | nil => simp [lePatternsGo]
  | cons d tl ih =>
    have hd : d < 65536 := h d (by simp)
    simp only [List.flatMap_cons, List.length_cons, lePatternsGo, u16le,
      List.cons_append, List.nil_append, List.take_succ_cons, List.take_zero,
      List.drop_succ_cons, List.drop_zero]
    rw [ih fun x hx => h x (List.mem_cons_of_mem d hx)]
    congr 1
    simp only [leVal, List.foldr_cons, List.foldr_nil]
    omega

theorem lePatterns_u16 (shape : List Nat) (h : ∀ d ∈ shape, d < 65536) :
    lePatterns 2 (shape.flatMap u16le) = shape := by
  have hlen := length_shape_bytes shape
  simp only [lePatterns, hlen]
  rw [show 2 * shape.length / 2 = shape.length by omega]
  exact lePatternsGo_u16 shape h

theorem foldl_max_lt (l : List Nat) (m b : Nat) (hb : b < m) (h : ∀ d ∈ l, d < m) :
    l.foldl max b < m := by
  induction l generalizing b with
  | nil => simpa
  | cons d tl ih =>
    simp only [List.foldl_cons]
    exact ih (max b d) (max_lt hb (h d (List.mem_cons_self d tl)))
      fun x hx => h x (List.mem_cons_of_mem d hx)

theorem storeByte_coe (n : Nat) : storeByte n = n % 256 := by
  simp only [storeByte]
  omega

theorem dtypeCode_lt (dt : DType) : dtypeCode dt < 256 := by cases dt <;> decide

theorem encode_simple (shape : List Nat) (dt : DType) (data : List Nat)
    (hdim : ∀ d ∈ shape, d < 65536) (hn : shape.length ≤ 128) :
    encode [(⟨shape, dt, data⟩, .none)] (some true) = .ok (simpleBytes shape dt data) := by
  have hmk : mkComponent ⟨shape, dt, data⟩ .none true =
      .ok { i0 := (dtypeCode dt : Int), i1 := (shape.length : Int)
            shapeBytes := shape.flatMap u16le, shapeStep := 2, shapeLen := shape.length
            dataBytes := data, dataStep := dtypeWidth dt
            dataLen := data.length / dtypeWidth dt
            extraEncoding := 0, extraLength := 0, extraBytes := [] } := by
    simp only [mkComponent]
    rw [if_neg (by omega)]
    rw [if_pos (foldl_max_lt shape 65536 0 (by omega) hdim)]
    simp [Except.map]
  simp only [encode, sysLittleEndian, List.mapM_cons, List.mapM_nil, hmk]
  simp only [bind, Except.bind, pure, Except.pure]
  simp only [List.map_cons, List.map_nil, List.sum_cons, List.sum_nil, List.length_cons,
    List.length_nil]
  rw [if_neg (by push_cast; omega)]
  simp only [writeAll, writeComp, List.length_nil, List.nil_append, List.append_nil,
    storeByte_coe]
  simp only [simpleBytes]
  norm_num [Nat.mod_eq_of_lt (dtypeCode_lt dt), Nat.mod_eq_of_lt (show shape.length < 256 by omega)]

theorem dtypeCode_ne_zero (dt : DType) : dtypeCode dt ≠ 0 := by cases dt <;> decide

theorem dtypeCode_lt_12 (dt : DType) : dtypeCode dt < 12 := by cases dt <;> decide

theorem dtypeWidth_pos (dt : DType) : 0 < dtypeWidth dt := by cases dt <;> decide

theorem decodeInfo_code (dt : DType) :
    decodeInfo (dtypeCode dt) = some (dtypeWidth dt, decodeTag dt) := by cases dt <;> rfl

theorem simpleBytes_length (shape : List Nat) (dt : DType) (data : List Nat) :
    (simpleBytes shape dt data).length = 2 + (2 * shape.length + data.length) := by
  simp only [simpleBytes, List.length_cons, List.length_append, length_shape_bytes]
  omega

theorem parseGo_nil (fuel : Nat) (acc : List DecRec) (temp : List (List Nat)) :
    parseGo (fuel + 1) [] acc temp = .ok (acc, []) := by
  simp [parseGo]

set_option maxHeartbeats 1000000 in
/-- How `parseFromUint8ArrayChunks` behaves on a chunk queue whose contents
are a prefix of the encoding `simpleBytes shape dt data` of one valid
little-endian record without extra (all dimensions below 65536, data length
exactly `product(shape) * width`).  A strict prefix parses to no records and
restores the queue contents; the complete buffer parses to exactly the one
decoded record with an emptied queue. -/
theorem parseGo_simple (shape : List Nat) (dt : DType) (data : List Nat)
    (hdim : ∀ d ∈ shape, d < 65536)
    (hdata : data.length = prodShape shape * dtypeWidth dt)
    (fuel : Nat) (q : List (List Nat)) (k : Nat)
    (hq : joinChunks q = (simpleBytes shape dt data).take k) :
    (k < (simpleBytes shape dt data).length →
      ∃ q', parseGo (fuel + 1) q [] [] = .ok ([], q') ∧ joinChunks q' = joinChunks q) ∧
    ((simpleBytes shape dt data).length ≤ k →
      parseGo (fuel + 1) q [] [] = .ok ([simpleRec shape dt data], [])) := by
  have hBlen := simpleBytes_length shape dt data
  have hjq : (joinChunks q).length = min k (simpleBytes shape dt data).length := by
    rw [hq, List.length_take]
  cases q with
  | nil =>
    have h0 : (0:Nat) = min k (simpleBytes shape dt data).length := by
      simpa [joinChunks] using hjq
    constructor
    · intro _
      exact ⟨[], parseGo_nil fuel [] [], rfl⟩
    · intro hge
      omega
  | cons c cs =>
    by_cases hk2 : k < 2
    · have hlen2 : (joinChunks (c :: cs)).length < 2 := by omega
      have hnone := splitChunks_none (c :: cs) 2 hlen2
      constructor
      · intro hklt
        refine ⟨c :: cs, ?_, rfl⟩
        simp only [parseGo, hnone, List.nil_append]
      · intro hge; omega
    · have h2le : 2 ≤ (joinChunks (c :: cs)).length := by omega
      have hsome2 := splitChunks_some (c :: cs) 2 h2le
      have hhdr : (joinChunks (c :: cs)).take 2 = [dtypeCode dt, shape.length] := by
        rw [hq, List.take_take, show min 2 k = 2 by omega]
        rfl
      rw [hhdr] at hsome2
      have hjq1 : joinChunks (takeLoop 2 (c :: cs)).2.2 =
          (shape.flatMap u16le ++ data).take (k - 2) := by
        rw [takeLoop_queue 2 (c :: cs) h2le, hq, List.drop_take]
        rfl
      have hne0 := dtypeCode_ne_zero dt
      have hlt12 := dtypeCode_lt_12 dt
      have hwpos := dtypeWidth_pos dt
      have hd0 : (if 0 < shape.length then 2 * shape.length else 4 * 0) = 2 * shape.length := by
        rcases Nat.eq_zero_or_pos shape.length with h | h
        · rw [h]
          rfl
        · rw [if_pos h]
      have htakek : (simpleBytes shape dt data).take k =
          dtypeCode dt :: shape.length :: (shape.flatMap u16le ++ data).take (k - 2) := by
        obtain ⟨k', rfl⟩ : ∃ k', k = k' + 2 := ⟨k - 2, by omega⟩
        simp [simpleBytes, List.take_succ_cons]
      by_cases hk3 : k < 2 + 2 * shape.length
      · -- the shape field is truncated
        have hlen3 : (joinChunks (takeLoop 2 (c :: cs)).2.2).length < 2 * shape.length := by
          rw [hjq1, List.length_take, List.length_append, length_shape_bytes]
          omega
        have hnone3 := splitChunks_none _ _ hlen3
        constructor
        · intro hklt
          refine ⟨[dtypeCode dt, shape.length] :: (takeLoop 2 (c :: cs)).2.2, ?_, ?_⟩
          · have h12 : ¬12 ≤ dtypeCode dt := by omega
            simp only [parseGo, hsome2, List.headD, List.drop_succ_cons, List.drop_zero,
              if_neg hne0, if_neg h12, decodeInfo_code dt, hd0, hnone3, List.nil_append,
              List.singleton_append]
          · have hexp : joinChunks ([dtypeCode dt, shape.length] :: (takeLoop 2 (c :: cs)).2.2) =
                [dtypeCode dt, shape.length] ++ joinChunks (takeLoop 2 (c :: cs)).2.2 := by
              simp [joinChunks]
            rw [hexp, hjq1, hq, htakek]
            rfl
        · intro hge; omega
      · -- the shape field is complete
        have h3le : 2 * shape.length ≤ (joinChunks (takeLoop 2 (c :: cs)).2.2).length := by
          rw [hjq1, List.length_take, List.length_append, length_shape_bytes]
          omega
        have hsome3 := splitChunks_some _ _ h3le
        have hsh : (joinChunks (takeLoop 2 (c :: cs)).2.2).take (2 * shape.length) =
            shape.flatMap u16le := by
          rw [hjq1, List.take_take, show min (2 * shape.length) (k - 2) = 2 * shape.length
              by omega,
            List.take_append_eq_append_take, length_shape_bytes,
            show 2 * shape.length - 2 * shape.length = 0 by omega,
            List.take_of_length_le (by rw [length_shape_bytes]), List.take_zero,
            List.append_nil]
        rw [hsh] at hsome3
        have hjq2 : joinChunks (takeLoop (2 * shape.length) (takeLoop 2 (c :: cs)).2.2).2.2 =
            data.take (k - 2 - 2 * shape.length) := by
          rw [takeLoop_queue _ _ h3le, hjq1, List.drop_take,
            List.drop_append_eq_append_drop, length_shape_bytes,
            show 2 * shape.length - 2 * shape.length = 0 by omega,
            List.drop_of_length_le (by rw [length_shape_bytes]), List.drop_zero,
            List.nil_append]
        have hshape_if : (if 0 < shape.length then lePatterns 2 (shape.flatMap u16le)
            else lePatterns 4 (shape.flatMap u16le)) = shape := by
          by_cases h : 0 < shape.length
          · simp [h, lePatterns_u16 shape hdim]
          · have hnil : shape = [] := by
              cases shape with
              | nil => rfl
              | cons a b => simp at h
            simp [hnil, lePatterns, lePatternsGo]
        have he0 : shape.foldl (fun x1 x2 => x1 * x2) 1 * dtypeWidth dt = data.length := by
          rw [hdata]; rfl
        by_cases hk4 : k < (simpleBytes shape dt data).length
        · -- the data field is truncated
          have hlen4 :
              (joinChunks (takeLoop (2 * shape.length) (takeLoop 2 (c :: cs)).2.2).2.2).length <
              data.length := by
            rw [hjq2, List.length_take]
            omega
          have hnone4 := splitChunks_none _ _ hlen4
          constructor
          · intro _
            refine ⟨[dtypeCode dt, shape.length] :: shape.flatMap u16le ::
                (takeLoop (2 * shape.length) (takeLoop 2 (c :: cs)).2.2).2.2, ?_, ?_⟩
            · have h12 : ¬12 ≤ dtypeCode dt := by omega
              simp only [parseGo, hsome2, List.headD, List.drop_succ_cons, List.drop_zero,
                if_neg hne0, if_neg h12, decodeInfo_code dt, hd0, hsome3, hshape_if,
                he0, hnone4, List.nil_append, List.singleton_append]
              rfl
            · have hexp : joinChunks ([dtypeCode dt, shape.length] :: shape.flatMap u16le ::
                  (takeLoop (2 * shape.length) (takeLoop 2 (c :: cs)).2.2).2.2) =
                  [dtypeCode dt, shape.length] ++ (shape.flatMap u16le ++
                    joinChunks (takeLoop (2 * shape.length) (takeLoop 2 (c :: cs)).2.2).2.2) := by
                simp [joinChunks]
              rw [hexp, hjq2, hq, htakek]
              rw [show (shape.flatMap u16le ++ data).take (k - 2) =
                  shape.flatMap u16le ++ data.take (k - 2 - 2 * shape.length) by
                rw [List.take_append_eq_append_take, length_shape_bytes,
                  List.take_of_length_le (by rw [length_shape_bytes]; omega)]]
              rfl
          · intro hge; omega
        · -- the record is complete
          have h4le : data.length ≤
              (joinChunks (takeLoop (2 * shape.length) (takeLoop 2 (c :: cs)).2.2).2.2).length := by
            rw [hjq2, List.length_take]
            omega
          have hsome4 := splitChunks_some _ _ h4le
          have hdat :
              (joinChunks (takeLoop (2 * shape.length) (takeLoop 2 (c :: cs)).2.2).2.2).take
                data.length = data := by
            rw [hjq2, List.take_take,
              show min data.length (k - 2 - 2 * shape.length) = data.length by omega,
              List.take_length]
          rw [hdat] at hsome4
          have hq3nil :
              (takeLoop data.length
                (takeLoop (2 * shape.length) (takeLoop 2 (c :: cs)).2.2).2.2).2.2 = [] := by
            apply splitChunks_some_queue_nil _ _ h4le
            rw [takeLoop_queue _ _ h4le, hjq2,
              show data.take (k - 2 - 2 * shape.length) = data from
                List.take_of_length_le (by omega),
              List.drop_of_length_le (le_refl _)]
          have hnine : ¬(dtypeCode dt = 9 ∧ data.length % 2 ≠ 0) := by
            cases dt <;> simp [dtypeCode, dtypeWidth, prodShape] at hdata ⊢
            all_goals omega
          constructor
          · intro h; omega
          · intro hge
            have h12 : ¬12 ≤ dtypeCode dt := by omega
            simp only [parseGo, hsome2, List.headD, List.drop_succ_cons, List.drop_zero,
              if_neg hne0, if_neg h12, decodeInfo_code dt, hd0, hsome3, hshape_if, he0,
              hsome4, hq3nil, if_neg hnine]
            rw [if_pos trivial]
            cases dt <;> simp [simpleRec, decElems, dtypeCode, dtypeWidth, decodeTag]

/-- `parseChunks` version of `parseGo_simple`. -/
theorem parseChunks_simple (shape : List Nat) (dt : DType) (data : List Nat)
    (hdim : ∀ d ∈ shape, d < 65536)
    (hdata : data.length = prodShape shape * dtypeWidth dt)
    (q : List (List Nat)) (k : Nat)
    (hq : joinChunks q = (simpleBytes shape dt data).take k) :
    (k < (simpleBytes shape dt data).length →
      ∃ q', parseChunks q = .ok ([], q') ∧ joinChunks q' = joinChunks q) ∧
    ((simpleBytes shape dt data).length ≤ k →
      parseChunks q = .ok ([simpleRec shape dt data], [])) :=
  parseGo_simple shape dt data hdim hdata (joinChunks q).length q k hq

/-- Decoding the complete single-record buffer yields the one record. -/
theorem decode_simpleBytes (shape : List Nat) (dt : DType) (data : List Nat)
    (hdim : ∀ d ∈ shape, d < 65536)
    (hdata : data.length = prodShape shape * dtypeWidth dt) :
    decode (simpleBytes shape dt data) = .ok [simpleRec shape dt data] := by
  have h := (parseChunks_simple shape dt data hdim hdata [simpleBytes shape dt data]
    (simpleBytes shape dt data).length
    (by simp [joinChunks, List.take_length])).2 (le_refl _)
  simp [decode, h, Except.map]

/-- Decoding a strict prefix of the single-record buffer yields no records
and no error. -/
theorem decode_simple_take (shape : List Nat) (dt : DType) (data : List Nat)
    (hdim : ∀ d ∈ shape, d < 65536)
    (hdata : data.length = prodShape shape * dtypeWidth dt)
    (k : Nat) (hk : k < (simpleBytes shape dt data).length) :
    decode ((simpleBytes shape dt data).take k) = .ok [] := by
  obtain ⟨q', h1, _⟩ := (parseChunks_simple shape dt data hdim hdata
    [(simpleBytes shape dt data).take k] k (by simp [joinChunks])).1 hk
  simp [decode, h1, Except.map]

theorem parseChunks_nil : parseChunks [] = .ok ([], []) := rfl

/-- The streaming read loop over fragments of the single-record buffer:
while the accumulated bytes are a strict prefix of the buffer it keeps
pulling, and it returns the record exactly when the bytes are complete. -/
theorem readLoop_simple (shape : List Nat) (dt : DType) (data : List Nat)
    (hdim : ∀ d ∈ shape, d < 65536)
    (hdata : data.length = prodShape shape * dtypeWidth dt) :
    ∀ (fs q : List (List Nat)) (kq K : Nat),
      (∀ f ∈ fs, f ≠ []) →
      joinChunks q = (simpleBytes shape dt data).take kq →
      kq < (simpleBytes shape dt data).length →
      K ≤ (simpleBytes shape dt data).length →
      joinChunks q ++ joinChunks fs = (simpleBytes shape dt data).take K →
      (K < (simpleBytes shape dt data).length →
        ∃ q', readLoop fs q = .ok ([], q', [], true) ∧
          joinChunks q' = (simpleBytes shape dt data).take K) ∧
      (K = (simpleBytes shape dt data).length →
        readLoop fs q = .ok ([simpleRec shape dt data], [], [], false)) := by
  intro fs
  induction fs with
  | nil =>
    intro q kq K hne hq hkq hK htot
    have h1 : joinChunks q = (simpleBytes shape dt data).take K := by
      simpa [joinChunks] using htot
    constructor
    · intro _
      exact ⟨q, rfl, h1⟩
    · intro hKeq
      exfalso
      have h2 : (joinChunks q).length = K := by
        rw [h1, List.length_take]
        omega
      have h3 : (joinChunks q).length = min kq (simpleBytes shape dt data).length := by
        rw [hq, List.length_take]
      omega
  | cons cFrag rest ih =>
    intro q kq K hne hq hkq hK htot
    have hcne : cFrag ≠ [] := hne cFrag (List.mem_cons_self cFrag rest)
    have hclen : 0 < cFrag.length := List.length_pos.mpr hcne
    have hlen_q : (joinChunks q).length = kq := by
      rw [hq, List.length_take]
      omega
    have htot' : (joinChunks q ++ cFrag) ++ joinChunks rest =
        (simpleBytes shape dt data).take K := by
      rw [← htot]
      simp [joinChunks]
    have hKlen : kq + cFrag.length + (joinChunks rest).length = K := by
      have := congrArg List.length htot'
      rw [List.length_take] at this
      simp only [List.length_append] at this
      omega
    have hkc : joinChunks (q ++ [cFrag]) =
        (simpleBytes shape dt data).take (kq + cFrag.length) := by
      have hx : joinChunks (q ++ [cFrag]) = joinChunks q ++ cFrag := by
        simp [joinChunks]
      have h1 : (simpleBytes shape dt data).take (kq + cFrag.length) =
          ((joinChunks q ++ cFrag) ++ joinChunks rest).take (kq + cFrag.length) := by
        rw [htot', List.take_take, min_eq_left (by omega)]
      rw [hx, h1, List.take_append_eq_append_take,
        List.take_of_length_le (by rw [List.length_append]; omega),
        show kq + cFrag.length - (joinChunks q ++ cFrag).length = 0 by
          rw [List.length_append]; omega,
        List.take_zero, List.append_nil]
    by_cases hfull : kq + cFrag.length < (simpleBytes shape dt data).length
    · -- this fragment still leaves a strict prefix: the parse restores and the
      -- loop pulls again
      obtain ⟨q1, hp, hjoin1⟩ := (parseChunks_simple shape dt data hdim hdata
        (q ++ [cFrag]) (kq + cFrag.length) hkc).1 hfull
      have hrec := ih q1 (kq + cFrag.length) K (fun f hf => hne f (List.mem_cons_of_mem _ hf))
        (hjoin1.trans hkc) hfull hK
        (by rw [hjoin1, hkc]
            have hy : (simpleBytes shape dt data).take (kq + cFrag.length) ++ joinChunks rest =
                (joinChunks q ++ cFrag) ++ joinChunks rest := by
              rw [← hkc]
              simp [joinChunks]
            rw [hy, htot'])
      simpa only [readLoop, hp, if_pos rfl] using hrec
    · -- the record completes on this fragment
      have hfull' : kq + cFrag.length = (simpleBytes shape dt data).length := by omega
      have hrestnil : rest = [] := by
        cases rest with
        | nil => rfl
        | cons f fs' =>
          exfalso
          have hfne : f ≠ [] := hne f (List.mem_cons_of_mem _ (List.mem_cons_self f fs'))
          have : 0 < f.length := List.length_pos.mpr hfne
          have : 0 < (joinChunks (f :: fs')).length := by
            simp only [joinChunks, List.flatten_cons, List.length_append]
            omega
          omega
      have hp := (parseChunks_simple shape dt data hdim hdata
        (q ++ [cFrag]) (kq + cFrag.length) hkc).2 (by omega)
      constructor
      · intro hKlt
        exfalso
        rw [hrestnil] at hKlen
        simp [joinChunks] at hKlen
        omega
      · intro _
        rw [hrestnil]
        simp only [readLoop, hp]
        rw [if_neg (by simp)]

theorem runDriver_two_done : runDriver 2 (⟨[], [], false, []⟩ : DState) =
    .ok ([], true, ⟨[], [], true, []⟩) := by rfl

/-- The first pull on a stream whose source fragments assemble to one
complete valid no-extra record: the read loop consumes the whole source and
the record is enqueued. -/
theorem pull_init_single (shape : List Nat) (dt : DType) (data : List Nat)
    (fs : List (List Nat))
    (hdim : ∀ d ∈ shape, d < 65536)
    (hdata : data.length = prodShape shape * dtypeWidth dt)
    (hfrag : ∀ f ∈ fs, f ≠ [])
    (hjoin : joinChunks fs = simpleBytes shape dt data) :
    pull (initState fs) = .ok ([simpleRec shape dt data], false, ⟨[], [], false, []⟩) := by
  have hBpos : 0 < (simpleBytes shape dt data).length := by
    rw [simpleBytes_length]
    omega
  have hrl := (readLoop_simple shape dt data hdim hdata fs [] 0
      (simpleBytes shape dt data).length hfrag (by simp [joinChunks]) hBpos (le_refl _)
      (by simp only [joinChunks, List.flatten_nil, List.nil_append]
          rw [show joinChunks fs = fs.flatten from rfl] at hjoin
          rw [hjoin, List.take_length])).2 rfl
  simp [pull, initState, parseChunks_nil, hrl]

/-- The first pull when the source fragments assemble to a strict prefix of
the record: everything is buffered, nothing is emitted, and `streamDone` is
set. -/
theorem pull_init_short (shape : List Nat) (dt : DType) (data : List Nat)
    (fs : List (List Nat)) (k : Nat)
    (hdim : ∀ d ∈ shape, d < 65536)
    (hdata : data.length = prodShape shape * dtypeWidth dt)
    (hfrag : ∀ f ∈ fs, f ≠ [])
    (hjoin : joinChunks fs = (simpleBytes shape dt data).take k)
    (hk : k < (simpleBytes shape dt data).length) :
    ∃ q', pull (initState fs) = .ok ([], false, ⟨q', [], true, []⟩) ∧
      joinChunks q' = (simpleBytes shape dt data).take k := by
  obtain ⟨q', hrl, hq'⟩ := (readLoop_simple shape dt data hdim hdata fs [] 0 k hfrag
      (by simp [joinChunks]) (by rw [simpleBytes_length]; omega) (by omega)
      (by simp only [joinChunks, List.flatten_nil, List.nil_append]
          exact hjoin)).1 hk
  refine ⟨q', ?_, hq'⟩
  simp [pull, initState, parseChunks_nil, hrl]

/-- A `splitChunks` call on a single-chunk queue that takes strictly fewer
bytes than the chunk holds: the front is popped and the remainder replaces
the chunk. -/
theorem splitChunks_single (c : List Nat) (L : Nat) (h : L < c.length) :
    splitChunks [c] L = (some (c.take L), [c.drop L]) := by
  have hns : ¬ c.length ≤ L := by omega
  simp only [splitChunks, takeLoop, if_neg hns]
  rcases Nat.eq_zero_or_pos L with h0 | h0
  · subst h0
    simp
  · rw [if_pos h0]
    simp [Nat.lt_irrefl]

/-! ### The claims -/

/-- C1: the spec's round-trip property, `decode(encode(R)) = R` for both
declared endiannesses, is right about the format but the decoder breaks it:
header bytes come back out of the `Uint8Array` unsigned, so the explicit
big-endian encoding of a scalar uint8 record (header byte `-1` stored as
255) is rejected by decode with an invalid-dtype error instead of being
parsed as a big-endian record.  (The byte-swapping branch of encode also
reads its source at the blob offset, producing `[255, 0, 0]` with a zeroed
data byte.) -/
theorem c1_bigendian_roundtrip_fails :
    encode [(⟨[], .uint8, [7]⟩, .none)] (some false) = .ok [255, 0, 0] ∧
    decode [255, 0, 0] = .error .badDType := ⟨rfl, rfl⟩

/-- C5: decode does not interpret header byte 0 as signed.  The byte is read
from a `Uint8Array`, so `-10` (big-endian float32) comes back as 246 and is
rejected as an invalid dtype rather than selecting big-endian with dtype
code 10.  The other parts of the claim hold: a zero byte, codes ≥ 12, and
the reserved codes 4 and 8 are all decode errors. -/
theorem c5_header_read_unsigned :
    storeByte (-10 : Int) = 246 ∧
    decode [246, 0, 205, 204, 140, 63] = .error .badDType ∧
    decode [0, 0] = .error .zeroHeader ∧
    decode [12, 0] = .error .badDType ∧
    decode [4, 0] = .error .unsupportedDType ∧
    decode [8, 0] = .error .unsupportedDType :=
  ⟨rfl, rfl, rfl, rfl, rfl, rfl⟩

/-- C10: the empty input is asymmetric at the public interface: decode of an
empty buffer returns the empty record sequence, while encode of an empty
record sequence throws, because it allocates a buffer of length
`blobLength + numBlobComponents - 1 = -1`. -/
theorem c10_empty_input_asymmetry :
    encode [] none = .error .negativeLength ∧
    encode [] (some true) = .error .negativeLength ∧
    encode [] (some false) = .error .negativeLength ∧
    decode [] = .ok [] := ⟨rfl, rfl, rfl, rfl⟩

/-- C8: the literal scenario.  The 2×3 float32 array with values
[1.1, 2.2, 3.3, 4.4, 5.5, 6.6] (float32 bit patterns `0x3F8CCCCD`, … whose
little-endian bytes are spelled out below), encoded little-endian with no
extra, gives exactly header `0x0A 0x02`, shape bytes `02 00 03 00`, then the
24 raw data bytes and nothing else; with extra `{"min":1.1,"max":6.6}` the
flag byte `0x02`, the little-endian length 21, and the 21 UTF-8 bytes of the
JSON text are appended. -/
theorem c8_literal_scenarios :
    encode [(⟨[2, 3], .float32,
        [205, 204, 140, 63, 205, 204, 12, 64, 51, 51, 83, 64,
         205, 204, 140, 64, 0, 0, 176, 64, 51, 51, 211, 64]⟩, .none)] (some true) =
      .ok ([10, 2] ++ [2, 0, 3, 0] ++
        [205, 204, 140, 63, 205, 204, 12, 64, 51, 51, 83, 64,
         205, 204, 140, 64, 0, 0, 176, 64, 51, 51, 211, 64]) ∧
    encode [(⟨[2, 3], .float32,
        [205, 204, 140, 63, 205, 204, 12, 64, 51, 51, 83, 64,
         205, 204, 140, 64, 0, 0, 176, 64, 51, 51, 211, 64]⟩,
      .json [123, 34, 109, 105, 110, 34, 58, 49, 46, 49, 44, 34, 109, 97, 120,
             34, 58, 54, 46, 54, 125])] (some true) =
      .ok ([10, 2] ++ [2, 0, 3, 0] ++
        [205, 204, 140, 63, 205, 204, 12, 64, 51, 51, 83, 64,
         205, 204, 140, 64, 0, 0, 176, 64, 51, 51, 211, 64] ++
        [2] ++ [21, 0, 0, 0] ++
        [123, 34, 109, 105, 110, 34, 58, 49, 46, 49, 44, 34, 109, 97, 120,
         34, 58, 54, 46, 54, 125]) := ⟨rfl, rfl⟩

/-- C3: the take-L-bytes primitive.  If the queue holds fewer than `L` bytes
the call fails and leaves the queue exactly as it was, so an immediate retry
fails identically; if it holds at least `L` bytes, the call returns exactly
the first `L` bytes of the queue's concatenation and the queue afterwards
concatenates to the remaining bytes. -/
theorem c3_splitChunks_contract (q : List (List Nat)) (L : Nat) :
    ((joinChunks q).length < L →
      splitChunks q L = (none, q) ∧
      splitChunks (splitChunks q L).2 L = (none, q)) ∧
    (L ≤ (joinChunks q).length →
      ∃ q', splitChunks q L = (some ((joinChunks q).take L), q') ∧
        joinChunks q' = (joinChunks q).drop L) := by
  constructor
  · intro h
    have h1 := splitChunks_none q L h
    refine ⟨h1, ?_⟩
    rw [h1]
    exact h1
  · intro h
    exact ⟨(takeLoop L q).2.2, splitChunks_some q L h, takeLoop_queue L q h⟩

/-- Witness for C3 at concrete queues: a short queue fails twice unchanged,
and a sufficient queue is split into the first two bytes and the rest. -/
theorem c3_splitChunks_contract_witness :
    (splitChunks [[1], [2]] 4 = (none, [[1], [2]]) ∧
      splitChunks (splitChunks [[1], [2]] 4).2 4 = (none, [[1], [2]])) ∧
    (∃ q', splitChunks [[1, 2], [3]] 2 = (some ((joinChunks [[1, 2], [3]]).take 2), q') ∧
      joinChunks q' = (joinChunks [[1, 2], [3]]).drop 2) :=
  ⟨(c3_splitChunks_contract [[1], [2]] 4).1 (by decide),
   (c3_splitChunks_contract [[1, 2], [3]] 2).2 (by decide)⟩

/-- C4 counterexample: decode of a truncated buffer does not fail and does
return a prefix of fully parsed records.  The buffer holds one complete
scalar uint8 record `[1, 0, 7]`, the separator, and a truncated second
record; decode returns the first record with no error. -/
theorem c4_truncated_prefix_cex :
    decode [1, 0, 7, 0, 1, 0] = .ok [(⟨[], .uint8, [7]⟩, .none)] := rfl

/-- C4 amended: truncation is swallowed, not raised.  The
`IncompleteChunksError` thrown by the take primitive is caught and the
records parsed before the truncation point are returned; in particular
decode of any strict prefix of a valid single-record no-extra little-endian
encoding returns the empty record list without error. -/
theorem c4_truncation_swallowed (shape : List Nat) (dt : DType) (data : List Nat)
    (B : List Nat) (k : Nat)
    (hdim : ∀ d ∈ shape, d < 65536) (hn : shape.length ≤ 128)
    (hdata : data.length = prodShape shape * dtypeWidth dt)
    (henc : encode [(⟨shape, dt, data⟩, .none)] (some true) = .ok B)
    (hk : k < B.length) :
    decode (B.take k) = .ok [] := by
  have h1 := encode_simple shape dt data hdim hn
  rw [henc] at h1
  have hBeq := Except.ok.inj h1
  subst hBeq
  exact decode_simple_take shape dt data hdim hdata k hk

/-- Witness for C4 amended: decoding the first two bytes of `[1, 0, 7]`
yields no records and no error. -/
theorem c4_truncation_swallowed_witness :
    decode (([1, 0, 7] : List Nat).take 2) = .ok [] :=
  c4_truncation_swallowed [] .uint8 [7] [1, 0, 7] 2 (by simp) (by simp) rfl rfl (by decide)

/-- C6 counterexample: after a record with an extra payload, a present but
nonzero next byte does not make decode fail; decode silently stops and
returns the records parsed so far, ignoring the rest of the buffer. -/
theorem c6_nonzero_after_extra_cex :
    decode ([1, 0, 7, 1, 1, 0, 0, 0, 9] ++ [5]) =
      .ok [(⟨[], .uint8, [7]⟩, .raw [9])] := rfl

set_option maxRecDepth 8000 in
/-- C6 amended: after a record with extra payload, decode peeks at the next
byte; any nonzero value (with any bytes after it) makes decode stop silently
and return the records parsed so far — no `MissingSeparator` error exists.
(After a record without extra, the next byte is instead consumed as the
extra-flag byte.) -/
theorem c6_silent_stop (b : Nat) (rest : List Nat) (hb : b ≠ 0) :
    decode ([1, 0, 7, 1, 1, 0, 0, 0, 9] ++ b :: rest) =
      .ok [(⟨[], .uint8, [7]⟩, .raw [9])] := by
  have h1 : splitChunks [1 :: 0 :: 7 :: 1 :: 1 :: 0 :: 0 :: 0 :: 9 :: b :: rest] 2 =
      (some [1, 0], [7 :: 1 :: 1 :: 0 :: 0 :: 0 :: 9 :: b :: rest]) := by
    have := splitChunks_single (1 :: 0 :: 7 :: 1 :: 1 :: 0 :: 0 :: 0 :: 9 :: b :: rest) 2
      (by simp)
    simpa using this
  have h2 : splitChunks [7 :: 1 :: 1 :: 0 :: 0 :: 0 :: 9 :: b :: rest] 0 =
      (some [], [7 :: 1 :: 1 :: 0 :: 0 :: 0 :: 9 :: b :: rest]) := by
    have := splitChunks_single (7 :: 1 :: 1 :: 0 :: 0 :: 0 :: 9 :: b :: rest) 0 (by simp)
    simpa using this
  have h3 : splitChunks [7 :: 1 :: 1 :: 0 :: 0 :: 0 :: 9 :: b :: rest] 1 =
      (some [7], [1 :: 1 :: 0 :: 0 :: 0 :: 9 :: b :: rest]) := by
    have := splitChunks_single (7 :: 1 :: 1 :: 0 :: 0 :: 0 :: 9 :: b :: rest) 1 (by simp)
    simpa using this
  have h4 : splitChunks [1 :: 1 :: 0 :: 0 :: 0 :: 9 :: b :: rest] 1 =
      (some [1], [1 :: 0 :: 0 :: 0 :: 9 :: b :: rest]) := by
    have := splitChunks_single (1 :: 1 :: 0 :: 0 :: 0 :: 9 :: b :: rest) 1 (by simp)
    simpa using this
  have h5 : splitChunks [1 :: 0 :: 0 :: 0 :: 9 :: b :: rest] 4 =
      (some [1, 0, 0, 0], [9 :: b :: rest]) := by
    have := splitChunks_single (1 :: 0 :: 0 :: 0 :: 9 :: b :: rest) 4 (by simp)
    simpa using this
  have h6 : splitChunks [9 :: b :: rest] 1 = (some [9], [b :: rest]) := by
    have := splitChunks_single (9 :: b :: rest) 1 (by simp)
    simpa using this
  have hgo : ∀ fuel, parseGo (fuel + 1) [1 :: 0 :: 7 :: 1 :: 1 :: 0 :: 0 :: 0 :: 9 :: b :: rest]
      [] [] = .ok ([(⟨[], .uint8, [7]⟩, .raw [9])], [b :: rest]) := by
    intro fuel
    simp [parseGo, h1, h2, h3, h4, h5, h6, hb, decodeInfo, leVal, lePatterns, lePatternsGo]
  have hp : parseChunks [1 :: 0 :: 7 :: 1 :: 1 :: 0 :: 0 :: 0 :: 9 :: b :: rest] =
      .ok ([(⟨[], .uint8, [7]⟩, .raw [9])], [b :: rest]) := hgo _
  show (parseChunks [1 :: 0 :: 7 :: 1 :: 1 :: 0 :: 0 :: 0 :: 9 :: b :: rest]).map (·.1) = _
  rw [hp]
  rfl

/-- Witness for C6 amended at the nonzero byte 5 followed by further bytes. -/
theorem c6_silent_stop_witness :
    decode ([1, 0, 7, 1, 1, 0, 0, 0, 9] ++ 5 :: [77, 78]) =
      .ok [(⟨[], .uint8, [7]⟩, .raw [9])] :=
  c6_silent_stop 5 [77, 78] (by decide)

set_option maxRecDepth 40000 in
/-- C9: boundary behaviour.  A record with the empty shape encodes and
decodes to a single scalar element for every supported dtype and matching
one-element data; a record with exactly 128 dimensions is accepted by
encode; one with 129 dimensions is rejected. -/
theorem c9_boundary :
    (∀ (dt : DType) (data : List Nat), data.length = dtypeWidth dt →
      ∃ B rec, encode [(⟨[], dt, data⟩, .none)] (some true) = .ok B ∧
        decode B = .ok [rec] ∧ rec.1.shape = [] ∧ rec.1.data.length = 1) ∧
    (encode [(⟨List.replicate 128 1, .uint8, [5]⟩, .none)] (some true)).isOk = true ∧
    encode [(⟨List.replicate 129 1, .uint8, [5]⟩, .none)] (some true) =
      .error .tooManyDims := by
  refine ⟨?_, rfl, rfl⟩
  intro dt data hlen
  have hdim : ∀ d ∈ ([] : List Nat), d < 65536 := by simp
  have hdata : data.length = prodShape [] * dtypeWidth dt := by
    simpa [prodShape] using hlen
  refine ⟨simpleBytes [] dt data, simpleRec [] dt data,
    encode_simple [] dt data hdim (by simp),
    decode_simpleBytes [] dt data hdim hdata, rfl, ?_⟩
  show (decElems dt data).length = 1
  cases dt <;> simp [decElems, dtypeWidth] at hlen ⊢ <;>
    simp [lePatterns, lePatternsGo, hlen]

/-- Witness for C9's scalar part at a uint8 record with data byte 7. -/
theorem c9_boundary_witness :
    ∃ B rec, encode [(⟨[], .uint8, [7]⟩, .none)] (some true) = .ok B ∧
      decode B = .ok [rec] ∧ rec.1.shape = [] ∧ rec.1.data.length = 1 :=
  c9_boundary.1 .uint8 [7] rfl

/-- C2 counterexample: streaming does not emit each record exactly once.
Encoding the two scalar records 7 and 9 gives `[1,0,7,0,1,0,9]`; splitting
it into the fragments `[1,0,7,0,1,0]` and `[9]` and driving the stream for
three pulls emits the first record three times (the parse call that ran out
of data restored the already-consumed bytes of the emitted record, because
`tempChunks` is only cleared after records with extra payloads), while
decode of the whole buffer yields the two distinct records once each. -/
theorem c2_duplicate_emission_cex :
    encode [(⟨[], .uint8, [7]⟩, .none), (⟨[], .uint8, [9]⟩, .none)] (some true) =
      .ok [1, 0, 7, 0, 1, 0, 9] ∧
    joinChunks [[1, 0, 7, 0, 1, 0], [9]] = [1, 0, 7, 0, 1, 0, 9] ∧
    decode [1, 0, 7, 0, 1, 0, 9] =
      .ok [(⟨[], .uint8, [7]⟩, .none), (⟨[], .uint8, [9]⟩, .none)] ∧
    outcome (runDriver 3 (initState [[1, 0, 7, 0, 1, 0], [9]])) =
      .ok ([(⟨[], .uint8, [7]⟩, .none), (⟨[], .uint8, [7]⟩, .none),
            (⟨[], .uint8, [7]⟩, .none)], false) ∧
    ((⟨[], .uint8, [7]⟩, DecExtra.none) : DecRec) ≠ (⟨[], .uint8, [9]⟩, DecExtra.none) :=
  ⟨rfl, rfl, rfl, rfl, by decide⟩

/-- C2 amended: the streaming equivalence holds for a single-record sequence
without extra payload (little-endian, 16-bit shape form): for every
fragmentation of the encoded buffer into non-empty fragments, the driver
emits exactly the one record of `decode(encode(R))` and closes.  For
multi-record sequences the driver can emit a record more than once, and a
fragment boundary directly after a data block makes it drop a following
extra payload. -/
theorem c2_single_record_stream (shape : List Nat) (dt : DType) (data : List Nat)
    (B : List Nat) (fs : List (List Nat))
    (hdim : ∀ d ∈ shape, d < 65536) (hn : shape.length ≤ 128)
    (hdata : data.length = prodShape shape * dtypeWidth dt)
    (hfrag : ∀ f ∈ fs, f ≠ [])
    (henc : encode [(⟨shape, dt, data⟩, .none)] (some true) = .ok B)
    (hjoin : joinChunks fs = B) :
    decode B = .ok [simpleRec shape dt data] ∧
    outcome (runDriver 3 (initState fs)) = .ok ([simpleRec shape dt data], true) := by
  have h1 := encode_simple shape dt data hdim hn
  rw [henc] at h1
  have hBeq := Except.ok.inj h1
  subst hBeq
  refine ⟨decode_simpleBytes shape dt data hdim hdata, ?_⟩
  have hpull1 := pull_init_single shape dt data fs hdim hdata hfrag hjoin
  have h3 : runDriver 3 (initState fs) =
      (match pull (initState fs) with
      | .error e => .error e
      | .ok (rs, true, s') => .ok (rs, true, s')
      | .ok (rs, false, s') =>
        match runDriver 2 s' with
        | .error e => .error e
        | .ok (rs2, closed, s2) => .ok (rs ++ rs2, closed, s2)) := rfl
  rw [h3, hpull1]
  simp only [runDriver_two_done]
  simp [outcome, Except.map]

/-- Witness for C2 amended: the scalar uint8 record 7 streamed in one-byte
fragments. -/
theorem c2_single_record_stream_witness :
    decode [1, 0, 7] = .ok [simpleRec [] .uint8 [7]] ∧
    outcome (runDriver 3 (initState [[1], [0], [7]])) =
      .ok ([simpleRec [] .uint8 [7]], true) :=
  c2_single_record_stream [] .uint8 [7] [1, 0, 7] [[1], [0], [7]]
    (by simp) (by simp) rfl (by decide) rfl rfl

/-- C7 counterexample: a source that delivers the two-byte fragment `[1,0]`
(a truncated record) and then ends.  The stream closes cleanly — no error is
reported — even though undecodable bytes remain buffered. -/
theorem c7_clean_close_cex :
    runDriver 2 (initState [[1, 0]]) =
      .ok ([], true, ⟨[[1, 0], []], [], true, []⟩) ∧
    ([[1, 0], []] : List (List Nat)) ≠ [] := ⟨rfl, by decide⟩

/-- C7 amended: when the source is exhausted while buffered bytes remain
that cannot complete a record, the stream still closes successfully with no
records emitted and no error: the pull after the source ends takes the
`streamDone`-and-no-records fast path, which closes the stream without
looking at the chunk queue (the `"There are still chunks left"` branch is
unreachable).  Only the empty-queue half of the claim holds. -/
theorem c7_stream_closes_with_leftover (shape : List Nat) (dt : DType) (data : List Nat)
    (B : List Nat) (fs : List (List Nat)) (k : Nat)
    (hdim : ∀ d ∈ shape, d < 65536) (hn : shape.length ≤ 128)
    (hdata : data.length = prodShape shape * dtypeWidth dt)
    (hfrag : ∀ f ∈ fs, f ≠ [])
    (henc : encode [(⟨shape, dt, data⟩, .none)] (some true) = .ok B)
    (hjoin : joinChunks fs = B.take k) (hk : k < B.length) (hfs : fs ≠ []) :
    ∃ s : DState, runDriver 2 (initState fs) = .ok ([], true, s) ∧ s.chunks ≠ [] := by
  have h1 := encode_simple shape dt data hdim hn
  rw [henc] at h1
  have hBeq := Except.ok.inj h1
  subst hBeq
  obtain ⟨q', hpull, hq'⟩ := pull_init_short shape dt data fs k hdim hdata hfrag hjoin hk
  refine ⟨⟨q', [], true, []⟩, ?_, ?_⟩
  · have h2 : runDriver 2 (initState fs) =
        (match pull (initState fs) with
        | .error e => .error e
        | .ok (rs, true, s') => .ok (rs, true, s')
        | .ok (rs, false, s') =>
          match runDriver 1 s' with
          | .error e => .error e
          | .ok (rs2, closed, s2) => .ok (rs ++ rs2, closed, s2)) := rfl
    have hp2 : pull (⟨q', [], true, []⟩ : DState) = .ok ([], true, ⟨q', [], true, []⟩) := by
      simp [pull]
    have h4 : runDriver 1 (⟨q', [], true, []⟩ : DState) =
        .ok ([], true, ⟨q', [], true, []⟩) := by
      have h5 : runDriver 1 (⟨q', [], true, []⟩ : DState) =
          (match pull (⟨q', [], true, []⟩ : DState) with
          | .error e => .error e
          | .ok (rs, true, s') => .ok (rs, true, s')
          | .ok (rs, false, s') =>
            match runDriver 0 s' with
            | .error e => .error e
            | .ok (rs2, closed, s2) => .ok (rs ++ rs2, closed, s2)) := rfl
      rw [h5, hp2]
    rw [h2, hpull]
    simp only [h4]
    simp
  · show q' ≠ []
    intro hnil
    rw [hnil] at hq'
    have hfs' : joinChunks fs ≠ [] := by
      cases fs with
      | nil => exact absurd rfl hfs
      | cons f rest =>
        have hf := hfrag f (List.mem_cons_self f rest)
        simp only [joinChunks, List.flatten_cons, ne_eq, List.append_eq_nil]
        intro hcontra
        exact hf hcontra.1
    exact hfs' (hjoin.trans hq'.symm)

/-- Witness for C7 amended: the fragment `[1,0]`, a strict prefix of the
scalar record `[1,0,7]`. -/
theorem c7_stream_closes_with_leftover_witness :
    ∃ s : DState, runDriver 2 (initState [[1, 0]]) = .ok ([], true, s) ∧ s.chunks ≠ [] :=
  c7_stream_closes_with_leftover [] .uint8 [7] [1, 0, 7] [[1, 0]] 2
    (by simp) (by simp) rfl (by decide) rfl rfl (by decide) (by decide)

end NpBlob
